/-
Verification of the doc-intelligence retrieval engine
(src/docint/retrieval/{bm25,hybrid,reranker}.py) against its
natural-language specification.

Python dictionaries are embedded as association lists with Python's
insertion-order semantics: assignment to an existing key updates the
value in place (keeping the key's position), assignment to a fresh key
appends it at the end.  Python floats are embedded as real numbers for
the BM25 component (whose scores involve `math.log`) and as rationals
for the hybrid-fusion and reranker components (whose arithmetic is
exactly rational), so that the latter stay fully executable.
-/
import Mathlib

namespace DocInt

/-! ### Association lists with Python-dict semantics -/

/-- Lookup in an association list (Python `d.get(k)` / `k in d`). -/
def alGet {α β : Type} [DecidableEq α] (k : α) : List (α × β) → Option β
  | [] => none
  | (k', v) :: rest => if k' = k then some v else alGet k rest

/-- Python `d[k] = v`: replace in place if the key exists, else append. -/
def alInsert {α β : Type} [DecidableEq α] (k : α) (v : β) :
    List (α × β) → List (α × β)
  | [] => [(k, v)]
  | (k', v') :: rest =>
    if k' = k then (k, v) :: rest else (k', v') :: alInsert k v rest

/-! ### Stable descending sort

Python's `sorted(..., key=score, reverse=True)` is a stable sort placing
higher keys first.  We model it as repeated stable insertion: each
element is placed after every earlier element whose key is ≥ its own. -/

/-- Insert `x` into a descending-sorted list, after all entries whose
key is ≥ `x`'s key (stability). -/
def insertDesc {α β : Type} [LinearOrder β] (x : α × β) :
    List (α × β) → List (α × β)
  | [] => [x]
  | y :: ys => if x.2 ≤ y.2 then y :: insertDesc x ys else x :: y :: ys

/-- Stable descending sort by the second component. -/
def sortDescBy {α β : Type} [LinearOrder β] (l : List (α × β)) :
    List (α × β) :=
  l.foldl (fun acc x => insertDesc x acc) []

/-! ### Tokenization (`BM25Index._tokenize`, bm25.py lines 51-67)

Lower-case the text, then emit maximal runs of alphanumeric characters;
every other character is a separator. -/

/-- The character loop of `_tokenize`: `cur` is the reversed current
token being accumulated. -/
def tokenizeAux : List Char → List Char → List String
  | [], cur => if cur = [] then [] else [String.mk cur.reverse]
  | c :: rest, cur =>
    if c.isAlphanum then tokenizeAux rest (c :: cur)
    else if cur = [] then tokenizeAux rest []
    else String.mk cur.reverse :: tokenizeAux rest []

/-- `BM25Index._tokenize`: whitespace/punctuation tokenization with
lower-casing. -/
def tokenize (text : String) : List String :=
  tokenizeAux (text.data.map Char.toLower) []

/-! ### The BM25 index (bm25.py)

Documents, metadata, document lengths, the inverted index and the IDF
cache are Python dicts, embedded as insertion-ordered association
lists.  Floats (`k1`, `b`, `_avgdl`, scores) are embedded as reals,
since scores involve `math.log`. -/

/-- Metadata mappings are opaque to the retrieval engine; we embed them
as string-to-string association lists. -/
def Meta : Type := List (String × String)

instance : DecidableEq Meta := by unfold Meta; infer_instance

/-- The mutable state of `BM25Index` (bm25.py lines 35-49). -/
structure BM25Index where
  k1 : ℝ
  b : ℝ
  documents : List (String × String)
  metadata : List (String × Meta)
  docLengths : List (String × ℕ)
  avgdl : ℝ
  invertedIndex : List (String × List (String × ℕ))
  idfCache : List (String × ℝ)

/-- `BM25Index.__init__(k1, b)`: fresh empty index. -/
noncomputable def BM25Index.init (k1 b : ℝ) : BM25Index :=
  ⟨k1, b, [], [], [], 0, [], []⟩

/-- A fresh index with the default tuning constants `k1 = 1.5`,
`b = 0.75`. -/
noncomputable def BM25Index.empty : BM25Index :=
  BM25Index.init 1.5 0.75

/-- A single `BM25Result` (bm25.py lines 12-18). -/
structure BM25Result where
  chunk_id : String
  content : String
  score : ℝ
  metadata : Meta

/-- The `term_freq` dict built inside `add` (bm25.py lines 89-91):
token → number of occurrences, keys in order of first occurrence. -/
def buildTermFreq (tokens : List String) : List (String × ℕ) :=
  tokens.foldl (fun m tok => alInsert tok ((alGet tok m).getD 0 + 1) m) []

/-- One iteration of the `add` loop (bm25.py lines 79-94): store one
(identifier, content, metadata) triple and merge its term frequencies
into the inverted index. -/
def BM25Index.addOne (st : BM25Index) (doc_id content : String)
    (meta : Meta) : BM25Index :=
  let tokens := tokenize content
  { st with
    documents := alInsert doc_id content st.documents
    metadata := alInsert doc_id meta st.metadata
    docLengths := alInsert doc_id tokens.length st.docLengths
    invertedIndex :=
      (buildTermFreq tokens).foldl
        (fun ii p =>
          alInsert p.1 (alInsert doc_id p.2 ((alGet p.1 ii).getD [])) ii)
        st.invertedIndex }

/-- `BM25Index.add(ids, contents, metadatas)` (bm25.py lines 69-102):
missing `metadatas` defaults to one empty mapping per identifier,
`zip` truncates to the shortest list, then average document length is
recomputed (when any document exists) and the IDF cache cleared. -/
noncomputable def BM25Index.add (st : BM25Index) (ids contents : List String)
    (metadatas : Option (List Meta)) : BM25Index :=
  let ms := metadatas.getD (ids.map fun _ => ([] : Meta))
  let st1 := (ids.zip (contents.zip ms)).foldl
    (fun s t => s.addOne t.1 t.2.1 t.2.2) st
  let st2 :=
    if st1.docLengths = [] then st1
    else { st1 with
      avgdl := ((st1.docLengths.map fun p => (p.2 : ℝ)).sum) /
        (st1.docLengths.length : ℝ) }
  { st2 with idfCache := [] }

/-- The IDF value recomputed on a cache miss (bm25.py lines 109-114):
`ln((N - df + 0.5) / (df + 0.5) + 1)`. -/
noncomputable def BM25Index.idfValue (st : BM25Index) (term : String) : ℝ :=
  let n := st.documents.length
  let df := ((alGet term st.invertedIndex).getD []).length
  Real.log (((n : ℝ) - (df : ℝ) + 0.5) / ((df : ℝ) + 0.5) + 1)

/-- `BM25Index._idf(term)` (bm25.py lines 104-116): return the cached
value if present, else compute it and insert it into the cache. -/
noncomputable def BM25Index.idf (st : BM25Index) (term : String) :
    ℝ × BM25Index :=
  match alGet term st.idfCache with
  | some v => (v, st)
  | none =>
    (st.idfValue term,
      { st with idfCache := alInsert term (st.idfValue term) st.idfCache })

/-- The inner loop over a term's postings (bm25.py lines 134-141):
accumulate `idf * (tf * (k1+1)) / (tf + k1 * (1 - b + b * |D|/avgdl))`
into the `scores` dict for every posting entry. -/
noncomputable def BM25Index.postingsFold (idf : ℝ) (st : BM25Index)
    (sc : List (String × ℝ)) (postings : List (String × ℕ)) :
    List (String × ℝ) :=
  postings.foldl
    (fun sc q =>
      let doc_len := (alGet q.1 st.docLengths).getD 0
      let num := (q.2 : ℝ) * (st.k1 + 1)
      let den := (q.2 : ℝ) +
        st.k1 * (1 - st.b + st.b * (doc_len : ℝ) / st.avgdl)
      alInsert q.1 ((alGet q.1 sc).getD 0 + idf * (num / den)) sc)
    sc

/-- One iteration of the scoring loop over query tokens (bm25.py lines
128-141): skip terms absent from the inverted index, otherwise look up
(or compute and cache) the IDF and accumulate the BM25 contribution of
every posting into the `scores` dict. -/
noncomputable def BM25Index.scoreStep
    (acc : List (String × ℝ) × BM25Index) (term : String) :
    List (String × ℝ) × BM25Index :=
  match alGet term acc.2.invertedIndex with
  | none => acc
  | some postings =>
    let p := acc.2.idf term
    (BM25Index.postingsFold p.1 p.2 acc.1 postings, p.2)

/-- The whole scoring loop of `search` (bm25.py lines 126-141). -/
noncomputable def BM25Index.searchScores (st : BM25Index)
    (queryTokens : List String) : List (String × ℝ) × BM25Index :=
  queryTokens.foldl BM25Index.scoreStep ([], st)

/-- `BM25Index.search(query, top_k)` (bm25.py lines 118-156): tokenize,
short-circuit on an empty token list, score, stable-sort descending by
score, truncate to `top_k` and build the result records. -/
noncomputable def BM25Index.search (st : BM25Index) (query : String)
    (top_k : ℕ) : List BM25Result × BM25Index :=
  let queryTokens := tokenize query
  if queryTokens = [] then ([], st)
  else
    let p := st.searchScores queryTokens
    let sortedDocs := (sortDescBy p.1).take top_k
    (sortedDocs.map fun q =>
      { chunk_id := q.1
        content := (alGet q.1 p.2.documents).getD ""
        score := q.2
        metadata := (alGet q.1 p.2.metadata).getD [] },
     p.2)

/-- `BM25Index.count()` (bm25.py lines 158-160). -/
def BM25Index.countDocs (st : BM25Index) : ℕ :=
  st.documents.length

/-! ### Hybrid retrieval (hybrid.py)

The embedder, the vector store and the keyword index are consumed
through narrow interfaces (`embed_query` + `vector_store.search`, and
`bm25_index.search`); we embed these two candidate sources as function
parameters from (query, requested count) to ranked result lists.  All
fusion arithmetic is exactly rational, so scores are embedded as `ℚ`
and every definition here is executable. -/

/-- `SearchResult` of the vector store / `BM25Result` as consumed by
fusion (store/base.py lines 11-17): identifier, content, score,
metadata. -/
structure SourceResult where
  chunk_id : String
  content : String
  score : ℚ
  metadata : Meta
deriving DecidableEq

/-- `HybridResult` (hybrid.py lines 13-21). -/
structure HybridResult where
  chunk_id : String
  content : String
  score : ℚ
  semantic_rank : Option ℕ
  bm25_rank : Option ℕ
  metadata : Meta
deriving DecidableEq

/-- The tuning state of `HybridRetriever` (hybrid.py lines 34-48); the
three collaborator objects are passed to `retrieve` as functions. -/
structure HybridRetriever where
  top_k : ℕ
  rrf_k : ℤ
  semantic_weight : ℚ
deriving DecidableEq

/-- `HybridRetriever.__init__` (hybrid.py lines 34-48): fields are
assigned verbatim; the body performs no validation. -/
def HybridRetriever.init (top_k : ℕ) (rrf_k : ℤ)
    (semantic_weight : ℚ) : HybridRetriever :=
  ⟨top_k, rrf_k, semantic_weight⟩

/-- Worker for the rank dictionaries: insert each result's identifier
with its 1-based position, later duplicates overwriting earlier ones as
in the Python dict comprehension. -/
def buildRanksFrom (m : List (String × ℕ)) : ℕ → List SourceResult →
    List (String × ℕ)
  | _, [] => m
  | n, r :: rest => buildRanksFrom (alInsert r.chunk_id n m) (n + 1) rest

/-- The rank dictionaries of hybrid.py lines 78-83: identifier → 1-based
position in the source's result list. -/
def buildRanks (results : List SourceResult) : List (String × ℕ) :=
  buildRanksFrom [] 1 results

/-- Python's `top_k or self.top_k` (hybrid.py line 62): `None` and `0`
are falsy, so both fall back to the retriever's default. -/
def HybridRetriever.effectiveTopK (r : HybridRetriever)
    (top_k : Option ℕ) : ℕ :=
  match top_k with
  | none => r.top_k
  | some 0 => r.top_k
  | some t => t

/-- The fused RRF score of one identifier (hybrid.py lines 90-103). -/
def HybridRetriever.rrfScore (r : HybridRetriever)
    (semanticRanks bm25Ranks : List (String × ℕ)) (doc_id : String) : ℚ :=
  (match alGet doc_id semanticRanks with
   | some rank => r.semantic_weight / ((r.rrf_k : ℚ) + (rank : ℚ))
   | none => 0) +
  (match alGet doc_id bm25Ranks with
   | some rank => (1 - r.semantic_weight) / ((r.rrf_k : ℚ) + (rank : ℚ))
   | none => 0)

/-- The content/metadata lookups of hybrid.py lines 112-123: semantic
results first (later duplicates overwrite), then BM25 results only for
identifiers not already present. -/
def buildLookups (semanticResults bm25Results : List SourceResult) :
    List (String × String) × List (String × Meta) :=
  let afterSem := semanticResults.foldl
    (fun m r => (alInsert r.chunk_id r.content m.1,
                 alInsert r.chunk_id r.metadata m.2)) ([], [])
  bm25Results.foldl
    (fun m r =>
      match alGet r.chunk_id m.1 with
      | some _ => m
      | none => (alInsert r.chunk_id r.content m.1,
                 alInsert r.chunk_id r.metadata m.2)) afterSem

/-- `HybridRetriever.retrieve(query, top_k)` (hybrid.py lines 50-135).
`semSearch` embeds `embed_query` composed with `vector_store.search`,
`kwSearch` embeds `bm25_index.search`; each is called once with
`candidate_k = k * 3`.  Python iterates the union of identifiers as a
hash `set`, whose order is implementation-defined; we fix the
deterministic order "semantic identifiers first, then new keyword
identifiers" (no claim depends on the union's iteration order). -/
def HybridRetriever.retrieve (r : HybridRetriever)
    (semSearch kwSearch : String → ℕ → List SourceResult)
    (query : String) (top_k : Option ℕ) : List HybridResult :=
  let k := r.effectiveTopK top_k
  let candidate_k := k * 3
  let semanticResults := semSearch query candidate_k
  let bm25Results := kwSearch query candidate_k
  let semanticRanks := buildRanks semanticResults
  let bm25Ranks := buildRanks bm25Results
  let allIds := semanticRanks.map Prod.fst ++
    ((bm25Ranks.map Prod.fst).filter
      (fun i => ¬ i ∈ semanticRanks.map Prod.fst))
  let rrfScores := allIds.map
    (fun i => (i, r.rrfScore semanticRanks bm25Ranks i))
  let sortedIds := ((sortDescBy rrfScores).take k).map Prod.fst
  let lookups := buildLookups semanticResults bm25Results
  sortedIds.map fun doc_id =>
    { chunk_id := doc_id
      content := (alGet doc_id lookups.1).getD ""
      score := (alGet doc_id rrfScores).getD 0
      semantic_rank := alGet doc_id semanticRanks
      bm25_rank := alGet doc_id bm25Ranks
      metadata := (alGet doc_id lookups.2).getD [] }

/-! ### Reranking (reranker.py)

The external scorer (one LLM call per candidate) is embedded as a
function from (query, capped document) to the parsed numeric response,
`none` standing for a response `float()` cannot parse.  All remaining
arithmetic is rational, hence executable. -/

/-- A candidate dict passed to `rerank` (keys `chunk_id`, `content`,
`score`, `metadata`). -/
structure Candidate where
  chunk_id : String
  content : String
  score : ℚ
  metadata : Meta
deriving DecidableEq

/-- `RerankResult` (reranker.py lines 11-20). -/
structure RerankResult where
  chunk_id : String
  content : String
  original_score : ℚ
  rerank_score : ℚ
  original_rank : ℕ
  new_rank : ℕ
  metadata : Meta
deriving DecidableEq

/-- Python `s[:1000]`-style truncation. -/
def strTake (n : ℕ) (s : String) : String :=
  String.mk (s.data.take n)

/-- The document text interpolated into the scoring prompt by
`LLMReranker._score_pair` (reranker.py line 65): `document[:1000]`. -/
def llmScoredDocument (document : String) : String :=
  strTake 1000 document

/-- `LLMReranker._score_pair(query, document)` (reranker.py lines
56-77): consult the external judge on the capped document; clamp a
parsed number to [0, 10] and divide by 10; an unparseable response
(`ValueError`/`TypeError`) yields the neutral score 0.5. -/
def scorePair (oracle : String → String → Option ℚ)
    (query document : String) : ℚ :=
  match oracle query (llmScoredDocument document) with
  | some score => min (max score 0) 10 / 10
  | none => 0.5

/-- The enumerated scoring pass of `LLMReranker.rerank` (reranker.py
lines 100-108): each candidate is paired with its 1-based original rank
and its rerank score; one bad response affects only its own candidate. -/
def scoreCandidates (oracle : String → String → Option ℚ)
    (query : String) : ℕ → List Candidate →
      List ((Candidate × ℕ) × ℚ)
  | _, [] => []
  | n, c :: rest =>
    ((c, n), scorePair oracle query c.content) ::
      scoreCandidates oracle query (n + 1) rest

/-- `LLMReranker.rerank(query, results, top_k)` (reranker.py lines
79-126): score every candidate, stable-sort descending by rerank score,
truncate to `top_k`, and emit records carrying original and new 1-based
ranks. -/
def rerank (oracle : String → String → Option ℚ) (query : String)
    (results : List Candidate) (top_k : ℕ) : List RerankResult :=
  if results = [] then []
  else
    let scored := scoreCandidates oracle query 1 results
    let sorted := (sortDescBy scored).take top_k
    (List.range sorted.length).zip sorted |>.map fun p =>
      { chunk_id := p.2.1.1.chunk_id
        content := p.2.1.1.content
        original_score := p.2.1.1.score
        rerank_score := p.2.2
        original_rank := p.2.1.2
        new_rank := p.1 + 1
        metadata := p.2.1.1.metadata }

/-- The query-document pairs handed to the cross-encoder by
`CrossEncoderReranker.rerank` (reranker.py line 177):
`[(query, r['content']) for r in results]` — the content is passed
verbatim, with no truncation. -/
def crossEncoderPairs (query : String) (results : List Candidate) :
    List (String × String) :=
  results.map fun r => (query, r.content)

/-! ### Spec-side definitions and verification devices -/

/-- The result-building tail of `search` (bm25.py lines 143-156),
abstracted over the state components it reads: stable-sort the scores
descending, truncate to `top_k`, and build the result records. -/
noncomputable def buildResults (docs : List (String × String))
    (meta : List (String × Meta)) (scores : List (String × ℝ))
    (top_k : ℕ) : List BM25Result :=
  ((sortDescBy scores).take top_k).map fun p =>
    { chunk_id := p.1
      content := (alGet p.1 docs).getD ""
      score := p.2
      metadata := (alGet p.1 meta).getD [] }

/-- The two index states being compared by a claim agree on everything
except the IDF cache. -/
def geoEq (s1 s2 : BM25Index) : Prop :=
  s1.k1 = s2.k1 ∧ s1.b = s2.b ∧ s1.documents = s2.documents ∧
  s1.metadata = s2.metadata ∧ s1.docLengths = s2.docLengths ∧
  s1.avgdl = s2.avgdl ∧ s1.invertedIndex = s2.invertedIndex

/-- The IDF value `_idf` effectively uses for a term: the cached value
if present, else the freshly computed one. -/
noncomputable def effIdf (st : BM25Index) (term : String) : ℝ :=
  (alGet term st.idfCache).getD (st.idfValue term)

/-- Every cached IDF value agrees with what recomputation would give
(true of every state `add` produces, since `add` clears the cache). -/
def CacheCoherent (st : BM25Index) : Prop :=
  ∀ t v, alGet t st.idfCache = some v → v = st.idfValue t

/-- The cache of `s2` extends the cache of `s1`: every term is either
cached identically, or was newly cached with the value recomputation
in `s1` would give. -/
def cacheExt (s2 s1 : BM25Index) : Prop :=
  ∀ u, alGet u s2.idfCache = alGet u s1.idfCache ∨
    (alGet u s1.idfCache = none ∧
     alGet u s2.idfCache = some (s1.idfValue u))

/-- The spec's per-item BM25 factor:
`(tf * (k1+1)) / (tf + k1 * (1 - b + b * |D| / avgdl))`. -/
noncomputable def tfFactor (st : BM25Index) (tf : ℕ) (d : String) : ℝ :=
  ((tf : ℝ) * (st.k1 + 1)) /
    ((tf : ℝ) + st.k1 *
      (1 - st.b + st.b * (((alGet d st.docLengths).getD 0 : ℕ) : ℝ) /
        st.avgdl))

/-- One query token's contribution to an item's score, per the spec:
`idf(t)` times the BM25 factor when the item occurs in the token's
postings, 0 otherwise.  Stated as a sum over the posting entries for
the item so that no well-formedness of the postings list is assumed. -/
noncomputable def termContribution (st : BM25Index) (t d : String) : ℝ :=
  match alGet t st.invertedIndex with
  | none => 0
  | some postings =>
    ((postings.filter fun q => q.1 = d).map
      fun q => st.idfValue t * tfFactor st q.2 d).sum

/-- The spec's accumulated BM25 score of item `d` over the query's
token list (one contribution per token occurrence). -/
noncomputable def specBM25Score (st : BM25Index)
    (queryTokens : List String) (d : String) : ℝ :=
  (queryTokens.map fun t => termContribution st t d).sum

/-- The spec's fused RRF score, written exactly as in the spec:
`w * 1/(rrf_k + semantic_rank)` (if present)
`+ (1 - w) * 1/(rrf_k + keyword_rank)` (if present). -/
def specFusedScore (r : HybridRetriever)
    (semRank bm25Rank : Option ℕ) : ℚ :=
  (match semRank with
   | some rank => r.semantic_weight * (1 / ((r.rrf_k : ℚ) + (rank : ℚ)))
   | none => 0) +
  (match bm25Rank with
   | some rank =>
     (1 - r.semantic_weight) * (1 / ((r.rrf_k : ℚ) + (rank : ℚ)))
   | none => 0)

/-! ### Concrete instances used by the claims -/

/-- Index holding one item `"d"` with content `"apple"`. -/
noncomputable def stApple : BM25Index :=
  BM25Index.empty.add ["d"] ["apple"] none

/-- The same index after re-adding identifier `"d"` with new content
`"banana"`. -/
noncomputable def stBanana : BM25Index :=
  stApple.add ["d"] ["banana"] none

/-- The spec's two-item example index. -/
noncomputable def revenueIndex : BM25Index :=
  BM25Index.empty.add ["doc1", "doc2"]
    ["revenue growth in Q3", "Q3 revenue growth was strong revenue increase"]
    none

/-- A hybrid retriever with the default tuning parameters
`top_k = 5`, `rrf_k = 60`, `semantic_weight = 0.5`. -/
def hybridDefault : HybridRetriever := HybridRetriever.init 5 60 (1/2)

/-- Concrete source results for the fusion examples. -/
def srA : SourceResult := ⟨"a", "contentA", 9/10, []⟩

def srB : SourceResult := ⟨"b", "contentB", 8/10, []⟩

/-- Candidates for the reranker examples, with original scores
`[0.9, 0.1, 0.5]`. -/
def cand0 : Candidate := ⟨"a0", "c0", 9/10, []⟩

def cand1 : Candidate := ⟨"a1", "c1", 1/10, []⟩

def cand2 : Candidate := ⟨"a2", "c2", 5/10, []⟩

/-- External judge returning 2, 9, 5 for the three candidates. -/
def oracle295 : String → String → Option ℚ := fun _ doc =>
  if doc = "c0" then some 2
  else if doc = "c1" then some 9
  else if doc = "c2" then some 5
  else none

/-- External judge whose response for `cand1` cannot be parsed. -/
def oracleMalformed : String → String → Option ℚ := fun _ doc =>
  if doc = "c0" then some 2
  else if doc = "c2" then some 5
  else none

/-- A 1001-character document. -/
def longContent : String := String.mk (List.replicate 1001 'a')

/-! ### Helper lemmas about the dictionary and sorting embeddings -/

theorem alGet_alInsert_self {α β : Type} [DecidableEq α] (k : α) (v : β)
    (l : List (α × β)) : alGet k (alInsert k v l) = some v := by
  induction l with
  | nil => simp [alGet, alInsert]
  | cons p rest ih =>
    obtain ⟨a, b⟩ := p
    by_cases h : a = k
    · simp [alInsert, h, alGet]
    · simp [alInsert, h, alGet, ih]

theorem alGet_alInsert_ne {α β : Type} [DecidableEq α] {k k' : α} (v : β)
    (l : List (α × β)) (hne : k' ≠ k) :
    alGet k (alInsert k' v l) = alGet k l := by
  induction l with
  | nil => simp [alGet, alInsert, hne]
  | cons p rest ih =>
    obtain ⟨a, b⟩ := p
    by_cases h : a = k'
    · simp [alInsert, h, alGet, hne]
    · simp [alInsert, h, alGet, ih]

theorem insertDesc_nil {α β : Type} [LinearOrder β] (x : α × β) :
    insertDesc x ([] : List (α × β)) = [x] := rfl

theorem insertDesc_cons {α β : Type} [LinearOrder β] (x z : α × β)
    (zs : List (α × β)) :
    insertDesc x (z :: zs) =
      if x.2 ≤ z.2 then z :: insertDesc x zs else x :: z :: zs := rfl

theorem mem_insertDesc {α β : Type} [LinearOrder β] {x y : α × β}
    {l : List (α × β)} : y ∈ insertDesc x l ↔ y = x ∨ y ∈ l := by
  induction l with
  | nil => simp [insertDesc]
  | cons z zs ih =>
    rw [insertDesc_cons]
    by_cases h : x.2 ≤ z.2
    · rw [if_pos h]
      simp only [List.mem_cons, ih]
      tauto
    · rw [if_neg h]
      simp only [List.mem_cons]

theorem insertDesc_sorted {α β : Type} [LinearOrder β] (x : α × β)
    {l : List (α × β)} (hl : l.Pairwise (fun a b => b.2 ≤ a.2)) :
    (insertDesc x l).Pairwise (fun a b => b.2 ≤ a.2) := by
  induction l with
  | nil => simp [insertDesc]
  | cons z zs ih =>
    rcases List.pairwise_cons.1 hl with ⟨hz, hzs⟩
    rw [insertDesc_cons]
    by_cases h : x.2 ≤ z.2
    · rw [if_pos h]
      refine List.pairwise_cons.2 ⟨?_, ih hzs⟩
      intro y hy
      rcases mem_insertDesc.1 hy with rfl | hy2
      · exact h
      · exact hz y hy2
    · rw [if_neg h]
      refine List.pairwise_cons.2 ⟨?_, hl⟩
      intro y hy
      rcases List.mem_cons.1 hy with rfl | hy2
      · exact le_of_not_le h
      · exact le_trans (hz y hy2) (le_of_not_le h)

theorem sortDescBy_sorted {α β : Type} [LinearOrder β]
    (l : List (α × β)) :
    (sortDescBy l).Pairwise (fun a b => b.2 ≤ a.2) := by
  have H : ∀ (l : List (α × β)) (acc : List (α × β)),
      acc.Pairwise (fun a b => b.2 ≤ a.2) →
      (l.foldl (fun acc x => insertDesc x acc) acc).Pairwise
        (fun a b => b.2 ≤ a.2) := by
    intro l
    induction l with
    | nil => intro acc h; simpa using h
    | cons x xs ih =>
      intro acc h
      exact ih _ (insertDesc_sorted x h)
  exact H l [] (by simp)

theorem mem_sortDescBy {α β : Type} [LinearOrder β] {y : α × β}
    {l : List (α × β)} : y ∈ sortDescBy l ↔ y ∈ l := by
  have H : ∀ (l acc : List (α × β)),
      y ∈ l.foldl (fun acc x => insertDesc x acc) acc ↔
        y ∈ acc ∨ y ∈ l := by
    intro l
    induction l with
    | nil => intro acc; simp
    | cons x xs ih =>
      intro acc
      rw [List.foldl_cons, ih]
      constructor
      · rintro (h | h)
        · rcases mem_insertDesc.1 h with rfl | h2
          · exact Or.inr (List.mem_cons_self _ _)
          · exact Or.inl h2
        · exact Or.inr (List.mem_cons_of_mem _ h)
      · rintro (h | h)
        · exact Or.inl (mem_insertDesc.2 (Or.inr h))
        · rcases List.mem_cons.1 h with rfl | h2
          · exact Or.inl (mem_insertDesc.2 (Or.inl rfl))
          · exact Or.inr h2
  have := H l []
  simpa using this

theorem sortDescBy_pair_of_not_le {α β : Type} [LinearOrder β]
    {x y : α × β} (h : ¬ y.2 ≤ x.2) : sortDescBy [x, y] = [y, x] := by
  simp [sortDescBy, insertDesc, h]

theorem mem_keys_alInsert {α β : Type} [DecidableEq α] {u k : α} (v : β)
    (l : List (α × β)) :
    u ∈ (alInsert k v l).map Prod.fst ↔ u = k ∨ u ∈ l.map Prod.fst := by
  induction l with
  | nil => simp [alInsert]
  | cons p rest ih =>
    obtain ⟨a, b⟩ := p
    by_cases h : a = k
    · subst h; simp [alInsert]
    · simp [alInsert, h, ih]; tauto

theorem alGet_isSome_iff {α β : Type} [DecidableEq α] (k : α)
    (l : List (α × β)) : (alGet k l).isSome ↔ k ∈ l.map Prod.fst := by
  induction l with
  | nil => simp [alGet]
  | cons p rest ih =>
    obtain ⟨a, b⟩ := p
    by_cases h : a = k
    · subst h; simp [alGet]
    · simp [alGet, h, ih, Ne.symm h]

theorem nodupKeys_alInsert {α β : Type} [DecidableEq α] (k : α) (v : β)
    {l : List (α × β)} (h : (l.map Prod.fst).Nodup) :
    ((alInsert k v l).map Prod.fst).Nodup := by
  induction l with
  | nil => simp [alInsert]
  | cons p rest ih =>
    obtain ⟨a, b⟩ := p
    simp only [List.map_cons, List.nodup_cons] at h
    by_cases hk : a = k
    · subst hk
      simpa [alInsert] using h
    · simp only [alInsert, if_neg hk, List.map_cons, List.nodup_cons]
      refine ⟨?_, ih h.2⟩
      intro hmem
      rcases (mem_keys_alInsert v rest).1 hmem with rfl | hmem2
      · exact hk rfl
      · exact h.1 hmem2

theorem alGet_eq_of_mem_nodup {α β : Type} [DecidableEq α] {k : α}
    {v : β} {l : List (α × β)} (hnd : (l.map Prod.fst).Nodup)
    (hmem : (k, v) ∈ l) : alGet k l = some v := by
  induction l with
  | nil => cases hmem
  | cons p rest ih =>
    obtain ⟨a, b⟩ := p
    simp only [List.map_cons, List.nodup_cons] at hnd
    rcases List.mem_cons.1 hmem with heq | hmem2
    · cases heq
      simp [alGet]
    · have hak : a ≠ k := by
        intro h
        subst h
        exact hnd.1 (List.mem_map.2 ⟨(a, v), hmem2, rfl⟩)
      simp [alGet, hak, ih hnd.2 hmem2]

/-! ### C5: constructor validation in `HybridRetriever.__init__` -/

/-- C5 counterexample: constructing a `HybridRetriever` with a semantic
weight of 2 (outside [0,1]) or with `rrf_k = -1` succeeds and stores
the invalid parameters verbatim — the constructor does not fail. -/
theorem c5_counterexample :
    (HybridRetriever.init 5 60 2).semantic_weight = 2 ∧
    ¬ (HybridRetriever.init 5 60 2).semantic_weight ≤ 1 ∧
    (HybridRetriever.init 5 (-1) (1/2)).rrf_k = -1 ∧
    (HybridRetriever.init 5 (-1) (1/2)).rrf_k < 0 := by
  refine ⟨rfl, by norm_num [HybridRetriever.init], rfl, by decide⟩

/-- C5 amended: the constructor performs no validation at all; for
every semantic weight and every `rrf_k` (valid or not) it produces a
retriever storing exactly the given parameters. -/
theorem c5_amended : ∀ (t : ℕ) (r : ℤ) (w : ℚ),
    (HybridRetriever.init t r w).top_k = t ∧
    (HybridRetriever.init t r w).rrf_k = r ∧
    (HybridRetriever.init t r w).semantic_weight = w :=
  fun _ _ _ => ⟨rfl, rfl, rfl⟩

/-! ### C7: document capping before external scoring -/

/-- C7 counterexample: `CrossEncoderReranker.rerank` hands the
cross-encoder a candidate's content verbatim — for a 1001-character
content the scored pair carries all 1001 characters, so the claim that
both implementations cap documents at 1000 characters is false. -/
theorem c7_counterexample :
    ((crossEncoderPairs "q" [⟨"id", longContent, 0, []⟩]).map
      fun p => p.2.length) = [1001] ∧
    ¬ ((1001 : ℕ) ≤ 1000) := by
  constructor
  · have h1 : longContent.length = 1001 := by
      simp only [longContent, String.length, List.length_replicate]
    simpa [crossEncoderPairs] using h1
  · decide

/-- C7 amended: only the LLM reranker caps the document at 1000
characters before scoring (`document[:1000]`); the cross-encoder
reranker passes every candidate's full content unchanged. -/
theorem c7_amended :
    (∀ d : String, (llmScoredDocument d).length ≤ 1000) ∧
    (∀ (q : String) (results : List Candidate),
      (crossEncoderPairs q results).map Prod.snd =
        results.map fun r => r.content) := by
  constructor
  · intro d
    simp only [llmScoredDocument, strTake, String.length]
    simp only [List.length_take]
    exact Nat.min_le_left _ _
  · intro q results
    simp [crossEncoderPairs, List.map_map]

/-! ### C6: LLM reranker scoring, fallback and ordering -/

theorem scorePair_bounds (oracle : String → String → Option ℚ)
    (q d : String) :
    0 ≤ scorePair oracle q d ∧ scorePair oracle q d ≤ 1 := by
  cases h : oracle q (llmScoredDocument d) with
  | none => simp [scorePair, h]; norm_num
  | some x =>
    simp only [scorePair, h]
    constructor
    · apply div_nonneg _ (by norm_num : (0:ℚ) ≤ 10)
      exact le_min (le_max_right x 0) (by norm_num)
    · rw [div_le_one (by norm_num : (0:ℚ) < 10)]
      exact min_le_right _ 10

theorem scoreCandidates_mem (oracle : String → String → Option ℚ)
    (q : String) :
    ∀ (n : ℕ) (results : List Candidate) (x : (Candidate × ℕ) × ℚ),
      x ∈ scoreCandidates oracle q n results →
      ∃ c : Candidate, x.2 = scorePair oracle q c.content := by
  intro n results
  induction results generalizing n with
  | nil => intro x hx; cases hx
  | cons c rest ih =>
    intro x hx
    rcases List.mem_cons.1 hx with rfl | hx2
    · exact ⟨c, rfl⟩
    · exact ih (n + 1) x hx2

theorem scorePair_295_c0 : scorePair oracle295 "query" "c0" = 1/5 := by
  have h : oracle295 "query" (llmScoredDocument "c0") = some 2 := by decide
  rw [scorePair, h]; norm_num

theorem scorePair_295_c1 : scorePair oracle295 "query" "c1" = 9/10 := by
  have h : oracle295 "query" (llmScoredDocument "c1") = some 9 := by decide
  rw [scorePair, h]; norm_num

theorem scorePair_295_c2 : scorePair oracle295 "query" "c2" = 1/2 := by
  have h : oracle295 "query" (llmScoredDocument "c2") = some 5 := by decide
  rw [scorePair, h]; norm_num

theorem scorePair_mal_c0 : scorePair oracleMalformed "query" "c0" = 1/5 := by
  have h : oracleMalformed "query" (llmScoredDocument "c0") = some 2 := by
    decide
  rw [scorePair, h]; norm_num

theorem scorePair_mal_c1 : scorePair oracleMalformed "query" "c1" = 1/2 := by
  have h : oracleMalformed "query" (llmScoredDocument "c1") = none := by
    decide
  rw [scorePair, h]; norm_num

theorem scorePair_mal_c2 : scorePair oracleMalformed "query" "c2" = 1/2 := by
  have h : oracleMalformed "query" (llmScoredDocument "c2") = some 5 := by
    decide
  rw [scorePair, h]; norm_num

/-- C6: every rerank score lies in [0,1]; an unparseable response for
one candidate yields exactly 0.5 there without affecting the others;
and on the spec's example (candidates scored 2, 9, 5 by the judge) the
output is the candidates in order (input index 1, 2, 0) with
`original_rank` 2, 3, 1 and `new_rank` 1, 2, 3. -/
theorem c6_llm_reranker :
    (∀ (oracle : String → String → Option ℚ) (q : String)
      (results : List Candidate) (top_k : ℕ) (res : RerankResult),
      res ∈ rerank oracle q results top_k →
      0 ≤ res.rerank_score ∧ res.rerank_score ≤ 1) ∧
    rerank oracle295 "query" [cand0, cand1, cand2] 5 =
      [⟨"a1", "c1", 1/10, 9/10, 2, 1, []⟩,
       ⟨"a2", "c2", 5/10, 1/2, 3, 2, []⟩,
       ⟨"a0", "c0", 9/10, 1/5, 1, 3, []⟩] ∧
    rerank oracleMalformed "query" [cand0, cand1, cand2] 5 =
      [⟨"a1", "c1", 1/10, 1/2, 2, 1, []⟩,
       ⟨"a2", "c2", 5/10, 1/2, 3, 2, []⟩,
       ⟨"a0", "c0", 9/10, 1/5, 1, 3, []⟩] := by
  refine ⟨?_, ?exA, ?exB⟩
  case exA =>
    have e0 : cand0.content = "c0" := rfl
    have e1 : cand1.content = "c1" := rfl
    have e2 : cand2.content = "c2" := rfl
    norm_num [rerank, scoreCandidates, e0, e1, e2, scorePair_295_c0,
      scorePair_295_c1, scorePair_295_c2, cand0, cand1, cand2, sortDescBy,
      insertDesc, List.range_succ]
    intro h
    exact absurd h (by simp)
  case exB =>
    have e0 : cand0.content = "c0" := rfl
    have e1 : cand1.content = "c1" := rfl
    have e2 : cand2.content = "c2" := rfl
    norm_num [rerank, scoreCandidates, e0, e1, e2, scorePair_mal_c0,
      scorePair_mal_c1, scorePair_mal_c2, cand0, cand1, cand2, sortDescBy,
      insertDesc, List.range_succ]
    intro h
    exact absurd h (by simp)
  intro oracle q results top_k res hres
  unfold rerank at hres
  by_cases hempty : results = []
  · simp [hempty] at hres
  · rw [if_neg hempty] at hres
    rcases List.mem_map.1 hres with ⟨p, hp, rfl⟩
    have hsnd : p.2 ∈ (sortDescBy (scoreCandidates oracle q 1 results)).take top_k :=
      (List.of_mem_zip hp).2
    have hsort : p.2 ∈ sortDescBy (scoreCandidates oracle q 1 results) :=
      List.mem_of_mem_take hsnd
    have hmem : p.2 ∈ scoreCandidates oracle q 1 results :=
      mem_sortDescBy.1 hsort
    rcases scoreCandidates_mem oracle q 1 results p.2 hmem with ⟨c, hc⟩
    have := scorePair_bounds oracle q c.content
    simpa [hc] using this

/-- C6 witness: the first result of the concrete rerank has its score
inside [0,1]. -/
theorem c6_llm_reranker_witness :
    0 ≤ (⟨"a1", "c1", 1/10, 9/10, 2, 1, []⟩ : RerankResult).rerank_score ∧
    (⟨"a1", "c1", 1/10, 9/10, 2, 1, []⟩ : RerankResult).rerank_score ≤ 1 :=
  c6_llm_reranker.1 oracle295 "query" [cand0, cand1, cand2] 5
    ⟨"a1", "c1", 1/10, 9/10, 2, 1, []⟩
    (by rw [c6_llm_reranker.2.1]; exact List.mem_cons_self _ _)

/-! ### Hybrid fusion lemmas -/

theorem alGet_graphMap {β : Type} (f : String → β) :
    ∀ (ids : List String) (i : String), i ∈ ids →
      alGet i (ids.map fun j => (j, f j)) = some (f i) := by
  intro ids
  induction ids with
  | nil => intro i hi; cases hi
  | cons a rest ih =>
    intro i hi
    by_cases h : a = i
    · subst h; simp [alGet]
    · rcases List.mem_cons.1 hi with rfl | hmem
      · exact absurd rfl h
      · simp only [List.map_cons, alGet, if_neg h]
        exact ih i hmem

theorem buildRanksFrom_bound :
    ∀ (l : List SourceResult) (m : List (String × ℕ)) (k : ℕ),
      1 ≤ k → (∀ i n, alGet i m = some n → 1 ≤ n ∧ n < k) →
      ∀ i n, alGet i (buildRanksFrom m k l) = some n →
        1 ≤ n ∧ n < k + l.length := by
  intro l
  induction l with
  | nil =>
    intro m k hk hm i n h
    have := hm i n h
    simpa using this
  | cons r rest ih =>
    intro m k hk hm i n h
    have step : ∀ i n, alGet i (alInsert r.chunk_id k m) = some n →
        1 ≤ n ∧ n < k + 1 := by
      intro i n hin
      by_cases hik : r.chunk_id = i
      · subst hik
        rw [alGet_alInsert_self] at hin
        cases hin
        exact ⟨hk, Nat.lt_succ_self k⟩
      · rw [alGet_alInsert_ne _ _ hik] at hin
        have := hm i n hin
        exact ⟨this.1, Nat.lt_succ_of_lt this.2⟩
    have := ih (alInsert r.chunk_id k m) (k + 1) (Nat.le_succ_of_le hk)
      step i n h
    refine ⟨this.1, ?_⟩
    have h2 := this.2
    simp only [List.length_cons]
    omega

theorem buildRanks_bound {l : List SourceResult} {i : String} {n : ℕ}
    (h : alGet i (buildRanks l) = some n) : 1 ≤ n ∧ n ≤ l.length := by
  have h0 : ∀ (i : String) (n : ℕ),
      alGet i ([] : List (String × ℕ)) = some n → 1 ≤ n ∧ n < 1 := by
    intro i n hin
    simp [alGet] at hin
  have := buildRanksFrom_bound l [] 1 (le_refl 1) h0 i n h
  omega

theorem buildRanksFrom_nodup :
    ∀ (l : List SourceResult) (m : List (String × ℕ)) (k : ℕ),
      (m.map Prod.fst).Nodup →
      ((buildRanksFrom m k l).map Prod.fst).Nodup := by
  intro l
  induction l with
  | nil => intro m k h; exact h
  | cons r rest ih =>
    intro m k h
    exact ih _ _ (nodupKeys_alInsert _ _ h)

theorem buildRanks_nodup (l : List SourceResult) :
    ((buildRanks l).map Prod.fst).Nodup :=
  buildRanksFrom_nodup l [] 1 (by simp)

theorem rrfScore_eq_specFusedScore (r : HybridRetriever)
    (sr br : List (String × ℕ)) (i : String) :
    r.rrfScore sr br i = specFusedScore r (alGet i sr) (alGet i br) := by
  unfold HybridRetriever.rrfScore specFusedScore
  congr 1
  · cases alGet i sr with
    | none => rfl
    | some n =>
      show r.semantic_weight / ((r.rrf_k : ℚ) + (n : ℚ)) =
        r.semantic_weight * (1 / ((r.rrf_k : ℚ) + (n : ℚ)))
      rw [mul_one_div]
  · cases alGet i br with
    | none => rfl
    | some n =>
      show (1 - r.semantic_weight) / ((r.rrf_k : ℚ) + (n : ℚ)) =
        (1 - r.semantic_weight) * (1 / ((r.rrf_k : ℚ) + (n : ℚ)))
      rw [mul_one_div]

theorem hybridRetrieve_exA :
    hybridDefault.retrieve (fun _ _ => [srA]) (fun _ _ => [srA, srB])
      "q" none =
      [⟨"a", "contentA", 1/61, some 1, some 1, []⟩,
       ⟨"b", "contentB", 1/124, none, some 2, []⟩] := by
  norm_num [HybridRetriever.retrieve, HybridRetriever.effectiveTopK,
    hybridDefault, HybridRetriever.init, buildRanks, buildRanksFrom,
    srA, srB, buildLookups, HybridRetriever.rrfScore, sortDescBy,
    insertDesc, alInsert, alGet,
    show ("a" : String) ≠ "b" from by decide,
    show ("b" : String) ≠ "a" from by decide]

theorem hybridRetrieve_exB :
    hybridDefault.retrieve (fun _ _ => []) (fun _ _ => [srA]) "q" none =
      [⟨"a", "contentA", 1/122, none, some 1, []⟩] := by
  norm_num [HybridRetriever.retrieve, HybridRetriever.effectiveTopK,
    hybridDefault, HybridRetriever.init, buildRanks, buildRanksFrom,
    srA, buildLookups, HybridRetriever.rrfScore, sortDescBy,
    insertDesc, alInsert, alGet]

/-- C10: every returned `HybridResult` carries at least one rank, and
any present rank is a 1-based position within the corresponding
source's returned candidate list. -/
theorem c10_rank_invariants :
    ∀ (r : HybridRetriever)
      (semSearch kwSearch : String → ℕ → List SourceResult)
      (q : String) (top_k : Option ℕ) (res : HybridResult),
      res ∈ r.retrieve semSearch kwSearch q top_k →
      (res.semantic_rank ≠ none ∨ res.bm25_rank ≠ none) ∧
      (∀ n, res.semantic_rank = some n →
        1 ≤ n ∧ n ≤ (semSearch q (r.effectiveTopK top_k * 3)).length) ∧
      (∀ n, res.bm25_rank = some n →
        1 ≤ n ∧ n ≤ (kwSearch q (r.effectiveTopK top_k * 3)).length) := by
  intro r ss ks q t res hres
  simp only [HybridRetriever.retrieve] at hres
  rw [List.map_map] at hres
  rcases List.mem_map.1 hres with ⟨p, hp, rfl⟩
  have hmem := mem_sortDescBy.1 (List.mem_of_mem_take hp)
  rcases List.mem_map.1 hmem with ⟨i, hi, rfl⟩
  refine ⟨?_, ?_, ?_⟩
  · rcases List.mem_append.1 hi with hsem | hkw
    · left
      intro hn
      have hn2 : alGet i
          (buildRanks (ss q (r.effectiveTopK t * 3))) = none := hn
      have hs := (alGet_isSome_iff i
        (buildRanks (ss q (r.effectiveTopK t * 3)))).2 hsem
      rw [hn2] at hs
      cases hs
    · right
      intro hn
      have hn2 : alGet i
          (buildRanks (ks q (r.effectiveTopK t * 3))) = none := hn
      have hkeys := (List.mem_filter.1 hkw).1
      have hs := (alGet_isSome_iff i
        (buildRanks (ks q (r.effectiveTopK t * 3)))).2 hkeys
      rw [hn2] at hs
      cases hs
  · intro n hn
    have hn2 : alGet i
        (buildRanks (ss q (r.effectiveTopK t * 3))) = some n := hn
    exact buildRanks_bound hn2
  · intro n hn
    have hn2 : alGet i
        (buildRanks (ks q (r.effectiveTopK t * 3))) = some n := hn
    exact buildRanks_bound hn2

/-- C10 witness: concrete fused retrieval whose first result is ranked
1st by both sources, within both source list lengths. -/
theorem c10_rank_invariants_witness :
    ((⟨"a", "contentA", 1/61, some 1, some 1, []⟩ :
        HybridResult).semantic_rank ≠ none ∨
      (⟨"a", "contentA", 1/61, some 1, some 1, []⟩ :
        HybridResult).bm25_rank ≠ none) ∧
    (1 ≤ 1 ∧ 1 ≤ ([srA] : List SourceResult).length) := by
  have h := c10_rank_invariants hybridDefault (fun _ _ => [srA])
    (fun _ _ => [srA, srB]) "q" none
    ⟨"a", "contentA", 1/61, some 1, some 1, []⟩
    (by rw [hybridRetrieve_exA]; exact List.mem_cons_self _ _)
  exact ⟨h.1, h.2.1 1 rfl⟩

/-- C3: fused retrieval truncates to the effective `top_k`, sorts
descending by fused score, gives every result the RRF score
`w * 1/(rrf_k + semantic_rank) + (1-w) * 1/(rrf_k + keyword_rank)`
(terms present only when the identifier appears in that source), and on
the concrete examples an identifier ranked 1st by both sources scores
`1/61` and precedes the others, while an identifier ranked 1st by a
single source scores `0.5/61 = 1/122`. -/
theorem c3_rrf_fusion :
    (∀ (r : HybridRetriever)
      (semSearch kwSearch : String → ℕ → List SourceResult)
      (q : String) (top_k : Option ℕ),
      (r.retrieve semSearch kwSearch q top_k).length ≤
        r.effectiveTopK top_k ∧
      (r.retrieve semSearch kwSearch q top_k).Pairwise
        (fun a b => b.score ≤ a.score) ∧
      ∀ res ∈ r.retrieve semSearch kwSearch q top_k,
        res.score = specFusedScore r res.semantic_rank res.bm25_rank) ∧
    hybridDefault.retrieve (fun _ _ => [srA]) (fun _ _ => [srA, srB])
      "q" none =
      [⟨"a", "contentA", 1/61, some 1, some 1, []⟩,
       ⟨"b", "contentB", 1/124, none, some 2, []⟩] ∧
    hybridDefault.retrieve (fun _ _ => []) (fun _ _ => [srA]) "q" none =
      [⟨"a", "contentA", 1/122, none, some 1, []⟩] ∧
    (1 : ℚ)/61 = 1/2 * (1/61) + 1/2 * (1/61) ∧
    (1 : ℚ)/122 = 1/2 * (1/61) := by
  refine ⟨?_, hybridRetrieve_exA, hybridRetrieve_exB, by norm_num,
    by norm_num⟩
  intro r ss ks q t
  refine ⟨?_, ?_, ?_⟩
  · simp only [HybridRetriever.retrieve, List.length_map,
      List.length_take]
    exact Nat.min_le_left _ _
  · simp only [HybridRetriever.retrieve]
    rw [List.map_map]
    apply List.pairwise_map.2
    have base := sortDescBy_sorted
      (((buildRanks (ss q (r.effectiveTopK t * 3))).map Prod.fst ++
        ((buildRanks (ks q (r.effectiveTopK t * 3))).map Prod.fst).filter
          (fun i => ¬ i ∈ (buildRanks (ss q (r.effectiveTopK t * 3))).map
            Prod.fst)).map
        fun i => (i, r.rrfScore (buildRanks (ss q (r.effectiveTopK t * 3)))
          (buildRanks (ks q (r.effectiveTopK t * 3))) i))
    have htake := base.sublist
      (List.take_sublist (r.effectiveTopK t) _)
    refine htake.imp_of_mem ?_
    intro a b ha hb hab
    have hmema := mem_sortDescBy.1 (List.mem_of_mem_take ha)
    have hmemb := mem_sortDescBy.1 (List.mem_of_mem_take hb)
    rcases List.mem_map.1 hmema with ⟨i, hi, rfl⟩
    rcases List.mem_map.1 hmemb with ⟨j, hj, rfl⟩
    show ((alGet j _).getD 0 : ℚ) ≤ (alGet i _).getD 0
    rw [alGet_graphMap _ _ _ hi, alGet_graphMap _ _ _ hj]
    exact hab
  · intro res hres
    simp only [HybridRetriever.retrieve] at hres
    rw [List.map_map] at hres
    rcases List.mem_map.1 hres with ⟨p, hp, rfl⟩
    have hmem := mem_sortDescBy.1 (List.mem_of_mem_take hp)
    rcases List.mem_map.1 hmem with ⟨i, hi, rfl⟩
    show ((alGet i _).getD 0 : ℚ) = specFusedScore r (alGet i _) (alGet i _)
    rw [alGet_graphMap _ _ _ hi]
    exact rrfScore_eq_specFusedScore r _ _ i

/-- C3 witness: on the concrete doubly-ranked example, the first
result's fused score matches the spec formula at its stored ranks. -/
theorem c3_rrf_fusion_witness :
    (⟨"a", "contentA", 1/61, some 1, some 1, []⟩ : HybridResult).score =
      specFusedScore hybridDefault (some 1) (some 1) :=
  (c3_rrf_fusion.1 hybridDefault (fun _ _ => [srA])
    (fun _ _ => [srA, srB]) "q" none).2.2
    ⟨"a", "contentA", 1/61, some 1, some 1, []⟩
    (by rw [hybridRetrieve_exA]; exact List.mem_cons_self _ _)

/-! ### C4: empty query and empty index are safe -/

theorem search_empty_tokens {st : BM25Index} {q : String} (k : ℕ)
    (h : tokenize q = []) : st.search q k = ([], st) := by
  simp [BM25Index.search, h]

theorem searchScores_nil_invertedIndex :
    ∀ (qts : List String) (st : BM25Index),
      st.invertedIndex = [] → ∀ sc,
      qts.foldl BM25Index.scoreStep (sc, st) = (sc, st) := by
  intro qts
  induction qts with
  | nil => intro st h sc; rfl
  | cons tok rest ih =>
    intro st h sc
    rw [List.foldl_cons]
    have hstep : BM25Index.scoreStep (sc, st) tok = (sc, st) := by
      unfold BM25Index.scoreStep
      rw [show alGet tok (sc, st).2.invertedIndex = none from by
        rw [show (sc, st).2 = st from rfl, h]; rfl]
    rw [hstep]
    exact ih st h sc

/-- C4: a query whose tokenization is empty returns an empty result
list and leaves the index untouched, and searching a fresh (empty)
index returns an empty result list for every query, with no division
ever performed (the scoring loop body is never reached). -/
theorem c4_empty_query_and_empty_index :
    (∀ (st : BM25Index) (q : String) (k : ℕ),
      tokenize q = [] → st.search q k = ([], st)) ∧
    (∀ (k1 b : ℝ) (q : String) (k : ℕ),
      (BM25Index.init k1 b).search q k = ([], BM25Index.init k1 b)) := by
  constructor
  · intro st q k h
    exact search_empty_tokens k h
  · intro k1 b q k
    by_cases h : tokenize q = []
    · exact search_empty_tokens k h
    · unfold BM25Index.search
      rw [if_neg h]
      unfold BM25Index.searchScores
      rw [searchScores_nil_invertedIndex (tokenize q)
        (BM25Index.init k1 b) rfl []]
      simp [sortDescBy]

/-- C4 witness: searching the concrete one-document index with the
empty query returns the empty list and leaves the index unchanged. -/
theorem c4_empty_query_and_empty_index_witness :
    stApple.search "" 3 = ([], stApple) :=
  c4_empty_query_and_empty_index.1 stApple "" 3 rfl

/-! ### C9: `add` silently truncates unequal batch lists -/

theorem zip_zip_take {α β γ : Type} :
    ∀ (ids : List α) (cs : List β) (ms : List γ),
      ids.zip (cs.zip ms) =
        (ids.take (min ids.length (min cs.length ms.length))).zip
          ((cs.take (min ids.length (min cs.length ms.length))).zip
            (ms.take (min ids.length (min cs.length ms.length)))) := by
  intro ids
  induction ids with
  | nil => intro cs ms; simp
  | cons a ids ih =>
    intro cs ms
    cases cs with
    | nil => simp
    | cons c cs =>
      cases ms with
      | nil => simp
      | cons m ms =>
        simp only [List.length_cons, Nat.succ_min_succ,
          List.take_succ_cons, List.zip_cons_cons]
        rw [ih cs ms]

/-- C9: when the three batch lists have unequal lengths, `add` indexes
exactly the first `min` of the lengths many triples (surplus entries
are ignored, no error); an omitted `metadatas` defaults to one empty
mapping per identifier; concretely, adding 2 ids with 1 content indexes
exactly 1 document. -/
theorem c9_add_unequal_lengths :
    (∀ (st : BM25Index) (ids contents : List String) (ms : List Meta),
      st.add ids contents (some ms) =
        st.add
          (ids.take (min ids.length (min contents.length ms.length)))
          (contents.take (min ids.length (min contents.length ms.length)))
          (some (ms.take
            (min ids.length (min contents.length ms.length))))) ∧
    (∀ (st : BM25Index) (ids contents : List String),
      st.add ids contents none =
        st.add ids contents (some (ids.map fun _ => ([] : Meta)))) ∧
    (BM25Index.empty.add ["a", "b"] ["x"] none).countDocs = 1 := by
  refine ⟨?_, ?_, by decide⟩
  · intro st ids contents ms
    simp only [BM25Index.add, Option.getD_some]
    rw [zip_zip_take ids contents ms]
  · intro st ids contents
    rfl

/-! ### C1: re-adding an existing identifier -/

theorem alGet_mem {α β : Type} [DecidableEq α] {k : α} {v : β} :
    ∀ {l : List (α × β)}, alGet k l = some v → (k, v) ∈ l := by
  intro l
  induction l with
  | nil => intro h; cases h
  | cons p rest ih =>
    obtain ⟨a, b⟩ := p
    intro h
    by_cases hak : a = k
    · subst hak
      rw [alGet, if_pos rfl] at h
      cases h
      exact List.mem_cons_self _ _
    · rw [alGet, if_neg hak] at h
      exact List.mem_cons_of_mem _ (ih h)

theorem alGet_termFreqFold :
    ∀ (toks : List String) (m : List (String × ℕ)) (t : String),
      alGet t (toks.foldl
        (fun m tok => alInsert tok ((alGet tok m).getD 0 + 1) m) m) =
      if toks.count t = 0 then alGet t m
      else some ((alGet t m).getD 0 + toks.count t) := by
  intro toks
  induction toks with
  | nil => intro m t; simp
  | cons tok rest ih =>
    intro m t
    rw [List.foldl_cons, ih]
    by_cases htk : tok = t
    · subst htk
      rw [alGet_alInsert_self, List.count_cons_self]
      by_cases hr : rest.count tok = 0
      · rw [if_pos hr, hr, if_neg (by omega : ¬ (0 + 1 = 0))]
      · rw [if_neg hr, if_neg (by omega : ¬ (rest.count tok + 1 = 0)),
          Option.getD_some]
        congr 1
        omega
    · rw [alGet_alInsert_ne _ _ htk]
      rw [List.count_cons_of_ne (by exact fun h => htk h.symm)]

theorem alGet_buildTermFreq (toks : List String) (t : String) :
    alGet t (buildTermFreq toks) =
      if toks.count t = 0 then none else some (toks.count t) := by
  unfold buildTermFreq
  rw [alGet_termFreqFold]
  by_cases h : toks.count t = 0
  · simp [h, alGet]
  · simp [h, alGet]

theorem mem_keys_buildTermFreq {toks : List String} {t : String} :
    t ∈ (buildTermFreq toks).map Prod.fst ↔ t ∈ toks := by
  rw [← alGet_isSome_iff, alGet_buildTermFreq]
  by_cases h : toks.count t = 0
  · simp [h, List.count_eq_zero.1 h]
  · simp [h, List.count_pos_iff.1 (by omega : 0 < toks.count t)]

theorem alGet_iiFold_not_mem (doc_id : String) :
    ∀ (tfl : List (String × ℕ))
      (ii : List (String × List (String × ℕ))) (t : String),
      ¬ t ∈ tfl.map Prod.fst →
      alGet t (tfl.foldl
        (fun ii p =>
          alInsert p.1 (alInsert doc_id p.2 ((alGet p.1 ii).getD [])) ii)
        ii) = alGet t ii := by
  intro tfl
  induction tfl with
  | nil => intro ii t _; rfl
  | cons p rest ih =>
    intro ii t ht
    simp only [List.map_cons, List.mem_cons] at ht
    push_neg at ht
    rw [List.foldl_cons, ih _ _ ht.2,
      alGet_alInsert_ne _ _ (fun h => ht.1 h.symm)]

theorem alGet_iiFold_mem (doc_id : String) :
    ∀ (tfl : List (String × ℕ))
      (ii : List (String × List (String × ℕ))) (t : String) (f : ℕ),
      (tfl.map Prod.fst).Nodup → (t, f) ∈ tfl →
      alGet t (tfl.foldl
        (fun ii p =>
          alInsert p.1 (alInsert doc_id p.2 ((alGet p.1 ii).getD [])) ii)
        ii) = some (alInsert doc_id f ((alGet t ii).getD [])) := by
  intro tfl
  induction tfl with
  | nil => intro ii t f _ hmem; cases hmem
  | cons p rest ih =>
    obtain ⟨u, g⟩ := p
    intro ii t f hnd hmem
    simp only [List.map_cons, List.nodup_cons] at hnd
    rcases List.mem_cons.1 hmem with heq | hmem2
    · cases heq
      rw [List.foldl_cons,
        alGet_iiFold_not_mem _ _ _ _ hnd.1,
        alGet_alInsert_self]
    · have htu : u ≠ t := by
        intro h
        subst h
        exact hnd.1 (List.mem_map.2 ⟨(u, f), hmem2, rfl⟩)
      rw [List.foldl_cons, ih _ t f hnd.2 hmem2,
        alGet_alInsert_ne _ _ htu]

theorem nodupKeys_buildTermFreq (toks : List String) :
    ((buildTermFreq toks).map Prod.fst).Nodup := by
  unfold buildTermFreq
  have H : ∀ (l : List String) (m : List (String × ℕ)),
      (m.map Prod.fst).Nodup →
      ((l.foldl (fun m tok => alInsert tok ((alGet tok m).getD 0 + 1) m)
        m).map Prod.fst).Nodup := by
    intro l
    induction l with
    | nil => intro m h; exact h
    | cons tok rest ih =>
      intro m h
      exact ih _ (nodupKeys_alInsert _ _ h)
  exact H toks [] (by simp)

theorem addOne_invertedIndex_absent (st : BM25Index)
    (doc_id c t : String) (meta : Meta) (h : ¬ t ∈ tokenize c) :
    alGet t (st.addOne doc_id c meta).invertedIndex =
      alGet t st.invertedIndex := by
  unfold BM25Index.addOne
  exact alGet_iiFold_not_mem doc_id _ _ t
    (fun hk => h (mem_keys_buildTermFreq.1 hk))

theorem addOne_invertedIndex_present (st : BM25Index)
    (doc_id c t : String) (meta : Meta) (h : t ∈ tokenize c) :
    alGet t (st.addOne doc_id c meta).invertedIndex =
      some (alInsert doc_id ((tokenize c).count t)
        ((alGet t st.invertedIndex).getD [])) := by
  unfold BM25Index.addOne
  have hcount : alGet t (buildTermFreq (tokenize c)) =
      some ((tokenize c).count t) := by
    rw [alGet_buildTermFreq,
      if_neg (by simpa [Nat.pos_iff_ne_zero] using
        List.count_pos_iff.2 h)]
  exact alGet_iiFold_mem doc_id _ _ t _
    (nodupKeys_buildTermFreq _) (alGet_mem hcount)

theorem add_single_proj (st : BM25Index) (doc_id c : String) :
    (st.add [doc_id] [c] none).documents =
      alInsert doc_id c st.documents ∧
    (st.add [doc_id] [c] none).docLengths =
      alInsert doc_id (tokenize c).length st.docLengths ∧
    (st.add [doc_id] [c] none).invertedIndex =
      (st.addOne doc_id c []).invertedIndex ∧
    (st.add [doc_id] [c] none).idfCache = [] := by
  unfold BM25Index.add
  refine ⟨?_, ?_, ?_, ?_⟩ <;> (try dsimp only) <;>
    first
    | rfl
    | (split <;> rfl)

/-- C1 counterexample: after re-adding identifier `"d"` (old content
`"apple"`, new content `"banana"`), searching the old-only token
`"apple"` still returns `"d"`, and the document-frequency count for
`"apple"` is still 1 — the stale posting is not removed, so the claim
that re-adding replaces the postings is false. -/
theorem c1_readd_counterexample :
    ((stBanana.search "apple" 5).1.map fun r => r.chunk_id) = ["d"] ∧
    ((alGet "apple" stBanana.invertedIndex).getD []).length = 1 := by
  exact ⟨rfl, by decide⟩

/-- C1 amended: re-adding an existing identifier replaces its stored
content and its recorded token length and clears the IDF cache, and
postings for the new content's terms are written; but postings for
terms of the old content that do not occur in the new content are NOT
removed — the identifier keeps its old term frequency there, and
document-frequency counts used by IDF keep counting it. -/
theorem c1_readd_amended :
    ∀ (st : BM25Index) (doc_id c1 c2 : String),
      alGet doc_id
        ((st.add [doc_id] [c1] none).add [doc_id] [c2] none).documents =
        some c2 ∧
      alGet doc_id
        ((st.add [doc_id] [c1] none).add [doc_id] [c2] none).docLengths =
        some (tokenize c2).length ∧
      ((st.add [doc_id] [c1] none).add [doc_id] [c2] none).idfCache = [] ∧
      (∀ t, t ∈ tokenize c1 → ¬ t ∈ tokenize c2 →
        alGet doc_id ((alGet t ((st.add [doc_id] [c1] none).add
          [doc_id] [c2] none).invertedIndex).getD []) =
          some ((tokenize c1).count t)) := by
  intro st doc_id c1 c2
  obtain ⟨hd1, hl1, hi1, hc1⟩ := add_single_proj st doc_id c1
  obtain ⟨hd2, hl2, hi2, hc2⟩ :=
    add_single_proj (st.add [doc_id] [c1] none) doc_id c2
  refine ⟨?_, ?_, hc2, ?_⟩
  · rw [hd2, alGet_alInsert_self]
  · rw [hl2, alGet_alInsert_self]
  · intro t ht1 ht2
    rw [hi2, addOne_invertedIndex_absent _ _ _ _ _ ht2, hi1,
      addOne_invertedIndex_present _ _ _ _ _ ht1,
      Option.getD_some, alGet_alInsert_self]

/-- C1 witness: the amended statement at the concrete apple/banana
re-add. -/
theorem c1_readd_amended_witness :
    alGet "d" stBanana.documents = some "banana" ∧
    alGet "d" stBanana.docLengths = some (tokenize "banana").length ∧
    stBanana.idfCache = [] ∧
    alGet "d" ((alGet "apple" stBanana.invertedIndex).getD []) =
      some ((tokenize "apple").count "apple") := by
  have h := c1_readd_amended BM25Index.empty "d" "apple" "banana"
  exact ⟨h.1, h.2.1, h.2.2.1, h.2.2.2 "apple" (by decide) (by decide)⟩

/-! ### C8: `search` mutates only the IDF cache and is idempotent -/

theorem geoEq_refl (st : BM25Index) : geoEq st st :=
  ⟨rfl, rfl, rfl, rfl, rfl, rfl, rfl⟩

theorem geoEq_trans {a b c : BM25Index} (h1 : geoEq a b)
    (h2 : geoEq b c) : geoEq a c := by
  obtain ⟨e1, e2, e3, e4, e5, e6, e7⟩ := h1
  obtain ⟨f1, f2, f3, f4, f5, f6, f7⟩ := h2
  exact ⟨e1.trans f1, e2.trans f2, e3.trans f3, e4.trans f4,
    e5.trans f5, e6.trans f6, e7.trans f7⟩

theorem geoEq_symm {a b : BM25Index} (h : geoEq a b) : geoEq b a := by
  obtain ⟨e1, e2, e3, e4, e5, e6, e7⟩ := h
  exact ⟨e1.symm, e2.symm, e3.symm, e4.symm, e5.symm, e6.symm, e7.symm⟩

theorem idfValue_geoEq {s1 s2 : BM25Index} (h : geoEq s1 s2)
    (t : String) : s1.idfValue t = s2.idfValue t := by
  obtain ⟨_, _, hdocs, _, _, _, hii⟩ := h
  unfold BM25Index.idfValue
  rw [hdocs, hii]

theorem cacheExt_refl (st : BM25Index) : cacheExt st st :=
  fun _ => Or.inl rfl

theorem cacheExt_trans {s3 s2 s1 : BM25Index} (h32 : cacheExt s3 s2)
    (h21 : cacheExt s2 s1) (hgeo : geoEq s2 s1) : cacheExt s3 s1 := by
  intro u
  rcases h32 u with ha | ⟨ha1, ha2⟩
  · rcases h21 u with hb | ⟨hb1, hb2⟩
    · exact Or.inl (ha.trans hb)
    · exact Or.inr ⟨hb1, ha.trans hb2⟩
  · rcases h21 u with hb | ⟨hb1, hb2⟩
    · rw [hb] at ha1
      exact Or.inr ⟨ha1, by rw [ha2, idfValue_geoEq hgeo]⟩
    · rw [hb2] at ha1
      cases ha1
  -- the contradictory case is closed above

theorem effIdf_congr {s2 s1 : BM25Index} (hgeo : geoEq s2 s1)
    (hext : cacheExt s2 s1) (u : String) : effIdf s2 u = effIdf s1 u := by
  unfold effIdf
  rcases hext u with h | ⟨h1, h2⟩
  · rw [h, idfValue_geoEq hgeo]
  · rw [h1, h2, Option.getD_some, Option.getD_none]

theorem idf_snd_geoEq (st : BM25Index) (t : String) :
    geoEq (st.idf t).2 st ∧ cacheExt (st.idf t).2 st := by
  unfold BM25Index.idf
  cases h : alGet t st.idfCache with
  | some v => exact ⟨geoEq_refl st, cacheExt_refl st⟩
  | none =>
    refine ⟨⟨rfl, rfl, rfl, rfl, rfl, rfl, rfl⟩, ?_⟩
    intro u
    by_cases hu : t = u
    · subst hu
      exact Or.inr ⟨h, by
        show alGet t (alInsert t (st.idfValue t) st.idfCache) = _
        rw [alGet_alInsert_self]⟩
    · left
      show alGet u (alInsert t (st.idfValue t) st.idfCache) = _
      rw [alGet_alInsert_ne _ _ hu]

theorem idf_fst_effIdf (st : BM25Index) (t : String) :
    (st.idf t).1 = effIdf st t := by
  unfold BM25Index.idf effIdf
  cases h : alGet t st.idfCache with
  | some v => rfl
  | none => rfl

theorem scoreStep_state (acc : List (String × ℝ) × BM25Index)
    (t : String) :
    geoEq (BM25Index.scoreStep acc t).2 acc.2 ∧
    cacheExt (BM25Index.scoreStep acc t).2 acc.2 := by
  unfold BM25Index.scoreStep
  cases h : alGet t acc.2.invertedIndex with
  | none => exact ⟨geoEq_refl _, cacheExt_refl _⟩
  | some postings => exact idf_snd_geoEq acc.2 t

theorem searchScores_state :
    ∀ (qts : List String) (sc : List (String × ℝ)) (st : BM25Index),
      geoEq (qts.foldl BM25Index.scoreStep (sc, st)).2 st ∧
      cacheExt (qts.foldl BM25Index.scoreStep (sc, st)).2 st := by
  intro qts
  induction qts with
  | nil => intro sc st; exact ⟨geoEq_refl st, cacheExt_refl st⟩
  | cons t rest ih =>
    intro sc st
    rw [List.foldl_cons]
    obtain ⟨hgeo1, hext1⟩ := scoreStep_state (sc, st) t
    obtain ⟨hgeo2, hext2⟩ := ih (BM25Index.scoreStep (sc, st) t).1
      (BM25Index.scoreStep (sc, st) t).2
    constructor
    · exact geoEq_trans hgeo2 hgeo1
    · exact cacheExt_trans hext2 hext1 hgeo1

theorem postingsFold_congr {i1 i2 : ℝ} {s1 s2 : BM25Index}
    (hi : i1 = i2) (hgeo : geoEq s1 s2) (sc : List (String × ℝ))
    (P : List (String × ℕ)) :
    BM25Index.postingsFold i1 s1 sc P =
      BM25Index.postingsFold i2 s2 sc P := by
  obtain ⟨hk, hb, _, _, hdl, havg, _⟩ := hgeo
  subst hi
  unfold BM25Index.postingsFold
  simp only [hk, hb, hdl, havg]

theorem scoreStep_scores_congr {s1 s2 : BM25Index} (hgeo : geoEq s1 s2)
    (heff : ∀ u, effIdf s1 u = effIdf s2 u) (sc : List (String × ℝ))
    (t : String) :
    (BM25Index.scoreStep (sc, s1) t).1 =
      (BM25Index.scoreStep (sc, s2) t).1 := by
  unfold BM25Index.scoreStep
  have hii : alGet t s1.invertedIndex = alGet t s2.invertedIndex := by
    rw [hgeo.2.2.2.2.2.2]
  rw [show alGet t (sc, s1).2.invertedIndex =
    alGet t s2.invertedIndex from hii]
  cases h : alGet t s2.invertedIndex with
  | none => rfl
  | some postings =>
    dsimp only
    have hfst : (s1.idf t).1 = (s2.idf t).1 := by
      rw [idf_fst_effIdf, idf_fst_effIdf]
      exact heff t
    have hgeo2 : geoEq (s1.idf t).2 (s2.idf t).2 :=
      geoEq_trans (idf_snd_geoEq s1 t).1
        (geoEq_trans hgeo (geoEq_symm (idf_snd_geoEq s2 t).1))
    exact postingsFold_congr hfst hgeo2 sc postings

theorem searchScores_scores_congr :
    ∀ (qts : List String) (sc : List (String × ℝ)) (s1 s2 : BM25Index),
      geoEq s1 s2 → (∀ u, effIdf s1 u = effIdf s2 u) →
      (qts.foldl BM25Index.scoreStep (sc, s1)).1 =
        (qts.foldl BM25Index.scoreStep (sc, s2)).1 := by
  intro qts
  induction qts with
  | nil => intro sc s1 s2 _ _; rfl
  | cons t rest ih =>
    intro sc s1 s2 hgeo heff
    rw [List.foldl_cons, List.foldl_cons]
    have hsc : (BM25Index.scoreStep (sc, s1) t).1 =
        (BM25Index.scoreStep (sc, s2) t).1 :=
      scoreStep_scores_congr hgeo heff sc t
    have hst1 := scoreStep_state (sc, s1) t
    have hst2 := scoreStep_state (sc, s2) t
    have hgeo12 : geoEq (BM25Index.scoreStep (sc, s1) t).2
        (BM25Index.scoreStep (sc, s2) t).2 :=
      geoEq_trans hst1.1 (geoEq_trans hgeo (geoEq_symm hst2.1))
    have heff12 : ∀ u, effIdf (BM25Index.scoreStep (sc, s1) t).2 u =
        effIdf (BM25Index.scoreStep (sc, s2) t).2 u := by
      intro u
      rw [effIdf_congr hst1.1 hst1.2 u, heff u,
        ← effIdf_congr hst2.1 hst2.2 u]
    calc (rest.foldl BM25Index.scoreStep
          (BM25Index.scoreStep (sc, s1) t)).1
        = (rest.foldl BM25Index.scoreStep
            ((BM25Index.scoreStep (sc, s1) t).1,
             (BM25Index.scoreStep (sc, s1) t).2)).1 := rfl
      _ = (rest.foldl BM25Index.scoreStep
            ((BM25Index.scoreStep (sc, s1) t).1,
             (BM25Index.scoreStep (sc, s2) t).2)).1 :=
          ih _ _ _ hgeo12 heff12
      _ = (rest.foldl BM25Index.scoreStep
            ((BM25Index.scoreStep (sc, s2) t).1,
             (BM25Index.scoreStep (sc, s2) t).2)).1 := by rw [hsc]
      _ = (rest.foldl BM25Index.scoreStep
            (BM25Index.scoreStep (sc, s2) t)).1 := rfl

theorem search_unfold (st : BM25Index) (q : String) (k : ℕ)
    (h : ¬ tokenize q = []) :
    st.search q k =
      (buildResults (st.searchScores (tokenize q)).2.documents
        (st.searchScores (tokenize q)).2.metadata
        (st.searchScores (tokenize q)).1 k,
       (st.searchScores (tokenize q)).2) := by
  unfold BM25Index.search
  rw [if_neg h]
  rfl

theorem searchScores_state2 (qts : List String) (st : BM25Index) :
    geoEq (st.searchScores qts).2 st ∧
    cacheExt (st.searchScores qts).2 st :=
  searchScores_state qts [] st

/-- C8: `search` leaves documents, metadata, lengths, postings, the
average length and the tuning constants unchanged; the IDF cache only
gains entries whose value is exactly what recomputation from the
unchanged index gives; and running the same search again on the
resulting state returns the identical result list. -/
theorem c8_search_frame_and_idempotent :
    ∀ (st : BM25Index) (q : String) (k : ℕ),
      ((st.search q k).2.documents = st.documents ∧
       (st.search q k).2.metadata = st.metadata ∧
       (st.search q k).2.docLengths = st.docLengths ∧
       (st.search q k).2.invertedIndex = st.invertedIndex ∧
       (st.search q k).2.avgdl = st.avgdl ∧
       (st.search q k).2.k1 = st.k1 ∧
       (st.search q k).2.b = st.b) ∧
      cacheExt (st.search q k).2 st ∧
      ((st.search q k).2.search q k).1 = (st.search q k).1 := by
  intro st q k
  by_cases h : tokenize q = []
  · rw [search_empty_tokens k h]
    exact ⟨⟨rfl, rfl, rfl, rfl, rfl, rfl, rfl⟩, cacheExt_refl st,
      by rw [search_empty_tokens k h]⟩
  · have hstate := searchScores_state2 (tokenize q) st
    obtain ⟨⟨hk1, hb, hdocs, hmeta, hdl, havg, hii⟩, hext⟩ := hstate
    have hsnd : (st.search q k).2 = (st.searchScores (tokenize q)).2 := by
      rw [search_unfold st q k h]
    refine ⟨?_, ?_, ?_⟩
    · rw [hsnd]
      exact ⟨hdocs, hmeta, hdl, hii, havg, hk1, hb⟩
    · rw [hsnd]
      exact hext
    · have hgeo2 : geoEq (st.searchScores (tokenize q)).2 st :=
        ⟨hk1, hb, hdocs, hmeta, hdl, havg, hii⟩
      have heff2 : ∀ u,
          effIdf (st.searchScores (tokenize q)).2 u = effIdf st u :=
        fun u => effIdf_congr hgeo2 hext u
      have hscores :
          (((st.searchScores (tokenize q)).2).searchScores
            (tokenize q)).1 = (st.searchScores (tokenize q)).1 :=
        searchScores_scores_congr (tokenize q) [] _ st hgeo2 heff2
      have hstate2 := searchScores_state2 (tokenize q)
        ((st.searchScores (tokenize q)).2)
      rw [search_unfold st q k h]
      dsimp only
      rw [search_unfold ((st.searchScores (tokenize q)).2) q k h]
      dsimp only
      rw [hscores, hstate2.1.2.2.1, hstate2.1.2.2.2.1]

/-! ### C2: the BM25 scoring formula and the concrete ranking -/

theorem tfFactor_geoEq {s1 s2 : BM25Index} (h : geoEq s1 s2)
    (tf : ℕ) (d : String) : tfFactor s1 tf d = tfFactor s2 tf d := by
  obtain ⟨hk, hb, _, _, hdl, havg, _⟩ := h
  unfold tfFactor
  rw [hk, hb, hdl, havg]

theorem effIdf_of_coherent {st : BM25Index} (h : CacheCoherent st)
    (u : String) : effIdf st u = st.idfValue u := by
  unfold effIdf
  cases hr : alGet u st.idfCache with
  | none => rfl
  | some v => rw [Option.getD_some]; exact h u v hr

theorem postingsFold_lookup (idf : ℝ) (s : BM25Index) (d : String) :
    ∀ (P : List (String × ℕ)) (sc : List (String × ℝ)),
      (alGet d (BM25Index.postingsFold idf s sc P)).getD 0 =
        (alGet d sc).getD 0 +
        ((P.filter fun q => q.1 = d).map
          fun q => idf * tfFactor s q.2 d).sum := by
  intro P
  induction P with
  | nil => intro sc; simp [BM25Index.postingsFold]
  | cons q rest ih =>
    obtain ⟨e, tf⟩ := q
    intro sc
    have hstep : BM25Index.postingsFold idf s sc ((e, tf) :: rest) =
        BM25Index.postingsFold idf s
          (alInsert e ((alGet e sc).getD 0 + idf * tfFactor s tf e) sc)
          rest := rfl
    by_cases hd : e = d
    · subst hd
      rw [hstep, ih, alGet_alInsert_self, Option.getD_some]
      simp only [List.filter_cons, decide_eq_true_eq, eq_self_iff_true,
        if_true, List.map_cons, List.sum_cons]
      rw [add_assoc]
    · rw [hstep, ih, alGet_alInsert_ne _ _ hd]
      simp only [List.filter_cons, decide_eq_true_eq, if_neg hd]

theorem searchScores_lookup :
    ∀ (qts : List String) (sc : List (String × ℝ)) (s st : BM25Index),
      geoEq s st → (∀ u, effIdf s u = st.idfValue u) →
      ∀ d, (alGet d (qts.foldl BM25Index.scoreStep (sc, s)).1).getD 0 =
        (alGet d sc).getD 0 + specBM25Score st qts d := by
  intro qts
  induction qts with
  | nil =>
    intro sc s st _ _ d
    simp [specBM25Score]
  | cons t rest ih =>
    intro sc s st hgeo heff d
    rw [List.foldl_cons]
    have hspec : specBM25Score st (t :: rest) d =
        termContribution st t d + specBM25Score st rest d := by
      simp [specBM25Score]
    have hii : alGet t st.invertedIndex = alGet t s.invertedIndex := by
      rw [hgeo.2.2.2.2.2.2]
    cases hP : alGet t s.invertedIndex with
    | none =>
      have hstep : BM25Index.scoreStep (sc, s) t = (sc, s) := by
        unfold BM25Index.scoreStep
        rw [show alGet t (sc, s).2.invertedIndex = none from hP]
      have hcontrib : termContribution st t d = 0 := by
        unfold termContribution
        rw [hii, hP]
      rw [hstep, ih sc s st hgeo heff d, hspec, hcontrib, zero_add]
    | some P =>
      have hstep : BM25Index.scoreStep (sc, s) t =
          (BM25Index.postingsFold (s.idf t).1 (s.idf t).2 sc P,
           (s.idf t).2) := by
        unfold BM25Index.scoreStep
        rw [show alGet t (sc, s).2.invertedIndex = some P from hP]
      have hgeo2 : geoEq (s.idf t).2 st :=
        geoEq_trans (idf_snd_geoEq s t).1 hgeo
      have heff2 : ∀ u, effIdf (s.idf t).2 u = st.idfValue u := by
        intro u
        rw [effIdf_congr (idf_snd_geoEq s t).1 (idf_snd_geoEq s t).2 u,
          heff u]
      have hidf : (s.idf t).1 = st.idfValue t := by
        rw [idf_fst_effIdf, heff t]
      have hcontrib : termContribution st t d =
          ((P.filter fun q => q.1 = d).map
            fun q => st.idfValue t * tfFactor st q.2 d).sum := by
        unfold termContribution
        rw [hii, hP]
      have hmap : ((P.filter fun q => q.1 = d).map
          fun q => (s.idf t).1 * tfFactor (s.idf t).2 q.2 d).sum =
          ((P.filter fun q => q.1 = d).map
            fun q => st.idfValue t * tfFactor st q.2 d).sum := by
        simp only [hidf, tfFactor_geoEq hgeo2]
      rw [hstep, ih _ _ st hgeo2 heff2 d, postingsFold_lookup, hmap,
        hspec, hcontrib, add_assoc]

theorem postingsFold_nodupKeys (idf : ℝ) (s : BM25Index) :
    ∀ (P : List (String × ℕ)) (sc : List (String × ℝ)),
      (sc.map Prod.fst).Nodup →
      ((BM25Index.postingsFold idf s sc P).map Prod.fst).Nodup := by
  intro P
  induction P with
  | nil => intro sc h; exact h
  | cons q rest ih =>
    intro sc h
    exact ih _ (nodupKeys_alInsert _ _ h)

theorem searchScores_nodupKeys :
    ∀ (qts : List String) (sc : List (String × ℝ)) (s : BM25Index),
      (sc.map Prod.fst).Nodup →
      (((qts.foldl BM25Index.scoreStep (sc, s)).1).map Prod.fst).Nodup := by
  intro qts
  induction qts with
  | nil => intro sc s h; exact h
  | cons t rest ih =>
    intro sc s h
    rw [List.foldl_cons]
    have hkeys : ((BM25Index.scoreStep (sc, s) t).1.map Prod.fst).Nodup := by
      unfold BM25Index.scoreStep
      cases hP : alGet t (sc, s).2.invertedIndex with
      | none => exact h
      | some P =>
        dsimp only
        exact postingsFold_nodupKeys _ _ P sc h
    have := ih (BM25Index.scoreStep (sc, s) t).1
      (BM25Index.scoreStep (sc, s) t).2 hkeys
    exact this

theorem postingsFold_pair (I : ℝ) (S : BM25Index) (d1 d2 : String)
    (t1 t2 : ℕ) (hne : d1 ≠ d2) :
    BM25Index.postingsFold I S [] [(d1, t1), (d2, t2)] =
      [(d1, 0 + I * tfFactor S t1 d1), (d2, 0 + I * tfFactor S t2 d2)] := by
  unfold BM25Index.postingsFold tfFactor
  simp [alInsert, alGet, hne, Ne.symm hne]

/-- C2: with a coherent IDF cache (in particular after any `add`, which
clears it), every search result's score is exactly the spec's
accumulated BM25 sum over the query's tokens; and on the spec's
two-item example, searching `"revenue"` ranks the second item first. -/
theorem c2_bm25_scoring :
    (∀ (st : BM25Index) (q : String) (k : ℕ), CacheCoherent st →
      ((st.search q k).1.map fun r => (r.chunk_id, r.score)) =
        ((st.search q k).1.map fun r =>
          (r.chunk_id, specBM25Score st (tokenize q) r.chunk_id))) ∧
    ((revenueIndex.search "revenue" 5).1.map fun r => r.chunk_id) =
      ["doc2", "doc1"] := by
  constructor
  · intro st q k hcoh
    by_cases h : tokenize q = []
    · rw [search_empty_tokens k h]
      rfl
    · rw [search_unfold st q k h]
      dsimp only
      unfold buildResults
      rw [List.map_map, List.map_map]
      apply List.map_congr_left
      intro p hp
      have hmem : p ∈ (st.searchScores (tokenize q)).1 :=
        mem_sortDescBy.1 (List.mem_of_mem_take hp)
      show (p.1, p.2) = (p.1, specBM25Score st (tokenize q) p.1)
      have hnd : (((st.searchScores (tokenize q)).1).map Prod.fst).Nodup :=
        searchScores_nodupKeys (tokenize q) [] st (by simp)
      have hget : alGet p.1 (st.searchScores (tokenize q)).1 = some p.2 :=
        alGet_eq_of_mem_nodup hnd hmem
      have hval := searchScores_lookup (tokenize q) [] st st
        (geoEq_refl st) (effIdf_of_coherent hcoh) p.1
      rw [show ((tokenize q).foldl BM25Index.scoreStep
          ([], st)).1 = (st.searchScores (tokenize q)).1 from rfl,
        hget] at hval
      simp only [Option.getD_some, alGet, Option.getD_none,
        zero_add] at hval
      rw [hval]
  · have hP : alGet "revenue" revenueIndex.invertedIndex =
        some [("doc1", 1), ("doc2", 2)] := by decide
    have h1 : revenueIndex.searchScores (tokenize "revenue") =
        (BM25Index.postingsFold (revenueIndex.idf "revenue").1
          (revenueIndex.idf "revenue").2 [] [("doc1", 1), ("doc2", 2)],
         (revenueIndex.idf "revenue").2) := by
      rw [show tokenize "revenue" = ["revenue"] from by decide]
      unfold BM25Index.searchScores
      rw [List.foldl_cons, List.foldl_nil]
      unfold BM25Index.scoreStep
      rw [show alGet "revenue"
        (([] : List (String × ℝ)), revenueIndex).2.invertedIndex =
        some [("doc1", 1), ("doc2", 2)] from hP]
    have hI : (revenueIndex.idf "revenue").1 = Real.log (6/5) := by
      have e1 : (revenueIndex.idf "revenue").1 =
          revenueIndex.idfValue "revenue" := rfl
      rw [e1]
      show Real.log ((((2:ℕ) : ℝ) - ((2:ℕ) : ℝ) + 0.5) /
        (((2:ℕ) : ℝ) + 0.5) + 1) = Real.log (6/5)
      norm_num
    have hf1 : tfFactor (revenueIndex.idf "revenue").2 1 "doc1" =
        220/193 := by
      show ((1:ℕ) : ℝ) * (1.5 + 1) / (((1:ℕ) : ℝ) + 1.5 *
        (1 - 0.75 + 0.75 * (((4:ℕ) : ℕ) : ℝ) /
          (((((4:ℕ) : ℝ)) + ((((7:ℕ) : ℝ)) + 0)) / (((2:ℕ)) : ℝ)))) =
        220/193
      push_cast
      norm_num
    have hf2 : tfFactor (revenueIndex.idf "revenue").2 2 "doc2" =
        88/67 := by
      show ((2:ℕ) : ℝ) * (1.5 + 1) / (((2:ℕ) : ℝ) + 1.5 *
        (1 - 0.75 + 0.75 * (((7:ℕ) : ℕ) : ℝ) /
          (((((4:ℕ) : ℝ)) + ((((7:ℕ) : ℝ)) + 0)) / (((2:ℕ)) : ℝ)))) =
        88/67
      push_cast
      norm_num
    have hscores : (revenueIndex.searchScores (tokenize "revenue")).1 =
        [("doc1", Real.log (6/5) * (220/193)),
         ("doc2", Real.log (6/5) * (88/67))] := by
      rw [h1]
      dsimp only
      rw [postingsFold_pair _ _ _ _ _ _ (by decide : ("doc1" : String) ≠ "doc2"),
        hI, hf1, hf2]
      simp only [zero_add]
    have hlt : Real.log (6/5) * (220/193) < Real.log (6/5) * (88/67) := by
      have hlog : 0 < Real.log (6/5) :=
        Real.log_pos (by norm_num)
      apply mul_lt_mul_of_pos_left _ hlog
      norm_num
    have hsort : sortDescBy
        [(("doc1" : String), Real.log (6/5) * (220/193)),
         ("doc2", Real.log (6/5) * (88/67))] =
        [("doc2", Real.log (6/5) * (88/67)),
         ("doc1", Real.log (6/5) * (220/193))] :=
      sortDescBy_pair_of_not_le (not_le.2 hlt)
    rw [search_unfold revenueIndex "revenue" 5 (by decide)]
    dsimp only
    unfold buildResults
    rw [hscores, hsort]
    rfl

/-- C2 witness: the general scoring statement applied to the concrete
one-document index (whose cache is empty, hence coherent). -/
theorem c2_bm25_scoring_witness :
    ((stBanana.search "apple" 5).1.map fun r => (r.chunk_id, r.score)) =
      ((stBanana.search "apple" 5).1.map fun r =>
        (r.chunk_id, specBM25Score stBanana (tokenize "apple")
          r.chunk_id)) :=
  c2_bm25_scoring.1 stBanana "apple" 5
    (by intro t v hv; rw [show stBanana.idfCache = [] from rfl] at hv;
        cases hv)

end DocInt
